import Mathlib

/-!
Shallow embedding of the `oggloop` package: a single-pass Ogg/Vorbis
page scanner that extracts the LOOPSTART and LOOPLENGTH comment tags.

The byte source is modelled as a `List Nat` (each element one byte,
values 0–255 in real streams).  Go's `int` is modelled as `Nat`/`Int`
with the 64-bit bound made explicit where `strconv.Atoi` checks it.
Both implementations of `Read` are embedded:
* `Oggloop.Read`   — the early-return variant (src/oggloop.go);
* `OggloopAlt.Read` — the latched-error-reader variant (src/unnamed/part_000).
The page loops are driven by a fuel parameter (`stream length + 1`),
which is proved adequate below; running out of fuel is a distinguished
result that the adequacy lemmas rule out.
-/

/-- ASCII byte list of a string literal (used to build concrete payloads). -/
def bytes (s : String) : List Nat := s.data.map Char.toNat

/-- The 4-byte Ogg capture pattern "OggS". -/
def oggSMagic : List Nat := [79, 103, 103, 83]

/-- The 4-byte (deliberately truncated) Vorbis signature "vorb". -/
def vorbSig : List Nat := [118, 111, 114, 98]

/-- The literal key "LOOPSTART=" of the regexp `LOOPSTART=([0-9]+)`. -/
def loopStartKey : List Nat := [76, 79, 79, 80, 83, 84, 65, 82, 84, 61]

/-- The literal key "LOOPLENGTH=" of the regexp `LOOPLENGTH=([0-9]+)`. -/
def loopLengthKey : List Nat := [76, 79, 79, 80, 76, 69, 78, 71, 84, 72, 61]

/-- ASCII decimal digit test, the `[0-9]` character class. -/
def isDigit (b : Nat) : Bool := 48 ≤ b && b ≤ 57

/-- Base-10 value of a digit run, the accumulation loop inside `strconv.Atoi`. -/
def digitsVal (ds : List Nat) : Nat := ds.foldl (fun acc d => acc * 10 + (d - 48)) 0

/-- Go's `math.MaxInt` on a 64-bit platform, the range bound of `strconv.Atoi`. -/
def maxGoInt : Nat := 9223372036854775807

/-- `strconv.Atoi` on a digit-only capture: fails on the empty string and on
values exceeding the 64-bit `int` range (`strconv.ErrRange`). -/
def atoiDigits (ds : List Nat) : Option Nat :=
  if ds = [] then none
  else if digitsVal ds ≤ maxGoInt then some (digitsVal ds) else none

/-- `re.FindSubmatch` for a pattern `KEY=([0-9]+)`: leftmost position where the
literal key is followed by at least one digit; the capture is the maximal
digit run there (RE2 leftmost semantics, greedy `+`). -/
def findTag (key : List Nat) : List Nat → Option (List Nat)
  | [] => none
  | b :: rest =>
    if key.isPrefixOf (b :: rest) then
      let ds := ((b :: rest).drop key.length).takeWhile isDigit
      if ds = [] then findTag key rest else some ds
    else findTag key rest

/-- The two ways the Go code can panic: `make([]byte, n)` with negative `n`
("makeslice: len out of range"), and a failed `strconv.Atoi` on a matched
digit run (`panic(err)` / `mustAtoi`). -/
inductive PanicKind where
  | makesliceNeg
  | atoiFail
deriving DecidableEq, Repr

/-- Errors returned (not panicked) by the scanners: a short read
(`io.EOF` / `io.ErrUnexpectedEOF` from `io.ReadFull`) and the negative-skip
protocol error ("oggloop: skipping byte(s) should be positive"). -/
inductive OggErr where
  | eof
  | negSkip
deriving DecidableEq, Repr

/-- Outcome of `Read`: the `(loopStart, loopLength, err)` triple Go returns,
a panic, or fuel exhaustion of the model (proved unreachable). -/
inductive ReadResult where
  | ret (loopStart loopLength : Nat) (err : Option OggErr)
  | panicked (p : PanicKind)
  | outOfFuel
deriving DecidableEq, Repr

/-- `io.ReadFull(src, make([]byte, n))`: exactly `n` bytes or a short read.
Returns the bytes read and the rest of the stream. -/
def readFull (n : Nat) (s : List Nat) : Option (List Nat × List Nat) :=
  if n ≤ s.length then some (s.take n, s.drop n) else none

/-- The tag-extraction block shared verbatim by both implementations
(lines 117–130 of oggloop.go; lines 125–130 plus `mustAtoi` of part_000):
`loopStartRe.FindSubmatch` then `Atoi` (panicking on failure), then the
same for `loopLengthRe`. -/
def applyTags (meta : List Nat) (ls ll : Nat) : Except PanicKind (Nat × Nat) :=
  match findTag loopStartKey meta with
  | none =>
    match findTag loopLengthKey meta with
    | none => .ok (ls, ll)
    | some ds2 =>
      match atoiDigits ds2 with
      | none => .error .atoiFail
      | some m => .ok (ls, m)
  | some ds =>
    match atoiDigits ds with
    | none => .error .atoiFail
    | some n =>
      match findTag loopLengthKey meta with
      | none => .ok (n, ll)
      | some ds2 =>
        match atoiDigits ds2 with
        | none => .error .atoiFail
        | some m => .ok (n, m)

/-- The packet-size accumulation loop (`for ; i < len(segs); i++ { size += ...;
if segs[i] < 255 { break } }`): sums a run of 255-entries up to and including
the first entry < 255 (or to table end), returning the sum and the unconsumed
tail of the table. -/
def accumSize : List Nat → Nat × List Nat
  | [] => (0, [])
  | seg :: rest =>
    if seg < 255 then (seg, rest)
    else
      match accumSize rest with
      | (sz, rest') => (seg + sz, rest')

namespace Oggloop

/-- `skip` from oggloop.go: no-op at 0, protocol error on negative lengths,
otherwise discards exactly `n` bytes via `io.ReadFull`. -/
def skip (n : Int) (s : List Nat) : Except OggErr (List Nat) :=
  if n = 0 then .ok s
  else if n < 0 then .error .negSkip
  else
    match readFull n.toNat s with
    | none => .error .eof
    | some (_, s') => .ok s'

/-- `readByte` from oggloop.go: `io.ReadFull` on a 1-byte buffer. -/
def readByte (s : List Nat) : Option (Nat × List Nat) :=
  match readFull 1 s with
  | none => none
  | some (b, s') => some (b.headD 0, s')

/-- Outcome of the per-page segment loop of oggloop.go's `Read`. -/
inductive SegOut where
  | done (s : List Nat) (ls ll : Nat) (hf : Bool)
  | fail (e : OggErr)
  | panic (p : PanicKind)
  | outOfFuel
deriving DecidableEq, Repr

/-- The `for i := 0; i < len(segs); i++` loop of oggloop.go's `Read`
(lines 78–132).  Each iteration reads the 5 classification bytes; a
non-"vorb" segment is skipped, a "vorb" non-comment header is skipped with
`headerFound = true`, and the comment header (type 3) triggers packet
reassembly (`accumSize`), the `make([]byte, size)` (panicking when
`size < 0`), the meta read, and the tag extraction.  Fuel bounds the number
of iterations; one table entry is consumed per iteration, so
`segs.length` fuel is enough. -/
def segLoop : Nat → List Nat → List Nat → Nat → Nat → Bool → SegOut
  | _, [], s, ls, ll, hf => .done s ls ll hf
  | 0, _ :: _, _, _, _, _ => .outOfFuel
  | fuel + 1, seg :: rest, s, ls, ll, hf =>
    match readByte s with
    | none => .fail .eof
    | some (ht, s1) =>
      match readFull 4 s1 with
      | none => .fail .eof
      | some (b, s2) =>
        if b ≠ vorbSig then
          match skip ((seg : Int) - 5) s2 with
          | .error e => .fail e
          | .ok s3 => segLoop fuel rest s3 ls ll hf
        else if ht ≠ 3 then
          match skip ((seg : Int) - 5) s2 with
          | .error e => .fail e
          | .ok s3 => segLoop fuel rest s3 ls ll true
        else
          match accumSize (seg :: rest) with
          | (size, rest') =>
            if (size : Int) - 5 < 0 then .panic .makesliceNeg
            else
              match readFull ((size : Int) - 5).toNat s2 with
              | none => .fail .eof
              | some (meta, s3) =>
                match applyTags meta ls ll with
                | .error p => .panic p
                | .ok (ls', ll') => segLoop fuel rest' s3 ls' ll' true

/-- The segment loop run with its adequate fuel, as `Read` runs it. -/
def runSegs (segs s : List Nat) (ls ll : Nat) : SegOut :=
  segLoop segs.length segs s ls ll false

/-- One page body of oggloop.go's `Read` after the capture pattern matched:
skip the 22 fixed header bytes, read the segment count and the segment
table, then run the segment loop. -/
def pageStep (s1 : List Nat) (ls ll : Nat) : SegOut :=
  match skip 22 s1 with
  | .error e => .fail e
  | .ok s2 =>
    match readByte s2 with
    | none => .fail .eof
    | some (nseg, s3) =>
      match readFull nseg s3 with
      | none => .fail .eof
      | some (segs, s4) => runSegs segs s4 ls ll

/-- The outer `for {}` loop of oggloop.go's `Read`: read 4 bytes, stop
normally on a capture mismatch (returning the accumulated values), process
the page, return `0, 0, err` on any error, and continue only when the page
contained a Vorbis header. -/
def readLoop : Nat → List Nat → Nat → Nat → ReadResult
  | 0, _, _, _ => .outOfFuel
  | fuel + 1, s, ls, ll =>
    match readFull 4 s with
    | none => .ret 0 0 (some .eof)
    | some (b, s1) =>
      if b = oggSMagic then
        match pageStep s1 ls ll with
        | .fail e => .ret 0 0 (some e)
        | .panic p => .panicked p
        | .outOfFuel => .outOfFuel
        | .done s5 ls' ll' hf =>
          if hf then readLoop fuel s5 ls' ll' else .ret ls' ll' none
      else .ret ls ll none

/-- `Read` from src/oggloop.go (early-return error propagation). -/
def Read (s : List Nat) : ReadResult := readLoop (s.length + 1) s 0 0

end Oggloop

namespace OggloopAlt

/-- The `errReader` wrapper of part_000: the underlying stream plus the
latched error. -/
structure ErrReader where
  r : List Nat
  err : Option OggErr
deriving DecidableEq, Repr

/-- `errReader.ReadBytes` from part_000.  `make([]byte, n)` runs before any
check, so a negative `n` panics ("makeslice: len out of range"); the
function's own `n < 0` branch (lines 48–51) is dead code and never runs.
With a latched error the zero-filled buffer is returned unread; a short
`io.ReadFull` hands back the bytes that were available padded with zeros
and latches the error. -/
def ReadBytes (n : Int) (st : ErrReader) : Except PanicKind (List Nat × ErrReader) :=
  if n < 0 then .error .makesliceNeg
  else if st.err.isSome then .ok (List.replicate n.toNat 0, st)
  else if n = 0 then .ok ([], st)
  else if n.toNat ≤ st.r.length then
    .ok (st.r.take n.toNat, ⟨st.r.drop n.toNat, none⟩)
  else .ok (st.r ++ List.replicate (n.toNat - st.r.length) 0, ⟨[], some .eof⟩)

/-- `errReader.ReadByte`: `ReadBytes(1)[0]`. -/
def ReadByte (st : ErrReader) : Except PanicKind (Nat × ErrReader) :=
  match ReadBytes 1 st with
  | .error p => .error p
  | .ok (buf, st') => .ok (buf.headD 0, st')

/-- `errReader.Skip` from part_000: no-op once an error is latched or at 0,
latches the negative-skip protocol error, otherwise discards via
`ReadBytes` (whose argument is positive here, so it cannot panic). -/
def Skip (n : Int) (st : ErrReader) : ErrReader :=
  if st.err.isSome then st
  else if n = 0 then st
  else if n < 0 then ⟨st.r, some .negSkip⟩
  else
    match ReadBytes n st with
    | .error _ => st
    | .ok (_, st') => st'

/-- Outcome of the per-page segment loop of part_000's `Read`. -/
inductive SegOut where
  | done (st : ErrReader) (ls ll : Nat) (hf : Bool)
  | panic (p : PanicKind)
  | outOfFuel
deriving DecidableEq, Repr

/-- The `for i := 0; i < len(segs); i++` loop of part_000's `Read`
(lines 99–132): identical control flow to the early-return variant, but
all reads go through the latched reader and the comment packet's payload
is fetched with `ReadBytes(size)`, which panics when `size < 0`. -/
def segLoop : Nat → List Nat → ErrReader → Nat → Nat → Bool → SegOut
  | _, [], st, ls, ll, hf => .done st ls ll hf
  | 0, _ :: _, _, _, _, _ => .outOfFuel
  | fuel + 1, seg :: rest, st, ls, ll, hf =>
    match ReadByte st with
    | .error p => .panic p
    | .ok (ht, st1) =>
      match ReadBytes 4 st1 with
      | .error p => .panic p
      | .ok (b, st2) =>
        if b ≠ vorbSig then
          segLoop fuel rest (Skip ((seg : Int) - 5) st2) ls ll hf
        else if ht ≠ 3 then
          segLoop fuel rest (Skip ((seg : Int) - 5) st2) ls ll true
        else
          match accumSize (seg :: rest) with
          | (size, rest') =>
            match ReadBytes ((size : Int) - 5) st2 with
            | .error p => .panic p
            | .ok (meta, st3) =>
              match applyTags meta ls ll with
              | .error p => .panic p
              | .ok (ls', ll') => segLoop fuel rest' st3 ls' ll' true

/-- The segment loop run with its adequate fuel, as `Read` runs it. -/
def runSegs (segs : List Nat) (st : ErrReader) (ls ll : Nat) : SegOut :=
  segLoop segs.length segs st ls ll false

/-- One page body of part_000's `Read` after the capture pattern matched:
`Skip(26-4)`, `ReadByte` the segment count, `ReadBytes` the table, then
the segment loop. -/
def pageStep (st1 : ErrReader) (ls ll : Nat) : SegOut :=
  match ReadByte (Skip 22 st1) with
  | .error p => .panic p
  | .ok (nseg, st3) =>
    match ReadBytes (nseg : Int) st3 with
    | .error p => .panic p
    | .ok (segs, st4) => runSegs segs st4 ls ll

/-- The outer `for {}` loop of part_000's `Read`: the naked `return`
surfaces the accumulated `loopStart`/`loopLength` together with whatever
error the deferred closure copies out of the latched reader. -/
def readLoop : Nat → ErrReader → Nat → Nat → ReadResult
  | 0, _, _, _ => .outOfFuel
  | fuel + 1, st, ls, ll =>
    match ReadBytes 4 st with
    | .error p => .panicked p
    | .ok (b, st1) =>
      if b = oggSMagic then
        match pageStep st1 ls ll with
        | .panic p => .panicked p
        | .outOfFuel => .outOfFuel
        | .done st5 ls' ll' hf =>
          if hf then readLoop fuel st5 ls' ll' else .ret ls' ll' st5.err
      else .ret ls ll st1.err

/-- `Read` from src/unnamed/part_000 (latched-error-reader propagation). -/
def Read (s : List Nat) : ReadResult := readLoop (s.length + 1) ⟨s, none⟩ 0 0

end OggloopAlt

/-- A single Ogg page carrying one comment header packet with payload `p`:
capture pattern, 22 zero header bytes, the segment count, a segment table
summing to `p.length + 5` (a run of 255s and the remainder), and the packet
itself (`headerType = 3`, the "vorb" signature, then the payload). -/
def commentPage (p : List Nat) : List Nat :=
  oggSMagic ++ List.replicate 22 0 ++ [(p.length + 5) / 255 + 1] ++
    (List.replicate ((p.length + 5) / 255) 255 ++ [(p.length + 5) % 255]) ++
    3 :: (vorbSig ++ p)

/-- A page with a valid capture pattern and an empty segment table: no
header packet is found on it, so the scan stops normally. -/
def plainPage : List Nat := oggSMagic ++ List.replicate 22 0 ++ [0]

/-- A two-page stream: one comment page with payload `p`, then a page with
no header packet, which terminates the scan normally. -/
def mkStream (p : List Nat) : List Nat := commentPage p ++ plainPage

namespace Oggloop

/-- The normal-termination relation of oggloop.go's `Read`: from stream `s`
with accumulators `ls`, `ll`, the scan ends with a nil error and result
`(a, b)` in exactly two ways — a 4-byte capture read that is not "OggS"
(returning the accumulators as they stand), or a fully processed page with
no Vorbis header (returning the values accumulated through that page) —
with fully processed header pages in between. -/
inductive NormalRet : List Nat → Nat → Nat → Nat → Nat → Prop
  | mismatch {s ls ll b s1} :
      readFull 4 s = some (b, s1) → b ≠ oggSMagic → NormalRet s ls ll ls ll
  | noHeader {s ls ll s1 s5 ls' ll'} :
      readFull 4 s = some (oggSMagic, s1) →
      pageStep s1 ls ll = .done s5 ls' ll' false →
      NormalRet s ls ll ls' ll'
  | nextPage {s ls ll s1 s5 ls' ll' a b} :
      readFull 4 s = some (oggSMagic, s1) →
      pageStep s1 ls ll = .done s5 ls' ll' true →
      NormalRet s5 ls' ll' a b →
      NormalRet s ls ll a b

end Oggloop

/-! ### Basic facts about the read primitives -/

theorem readFull_of_le {n : Nat} {s : List Nat} (h : n ≤ s.length) :
    readFull n s = some (s.take n, s.drop n) := by
  simp [readFull, h]

theorem readFull_append (l r : List Nat) :
    readFull l.length (l ++ r) = some (l, r) := by
  have h : l.length ≤ (l ++ r).length := by simp
  rw [readFull_of_le h, List.take_left, List.drop_left]

theorem readFull_none {n : Nat} {s : List Nat} (h : s.length < n) :
    readFull n s = none := by
  simp [readFull]; omega

theorem readFull_some {n : Nat} {s b s' : List Nat}
    (h : readFull n s = some (b, s')) :
    n ≤ s.length ∧ b = s.take n ∧ s' = s.drop n := by
  by_cases hn : n ≤ s.length
  · rw [readFull_of_le hn] at h
    injection h with h2
    injection h2 with hb hs
    exact ⟨hn, hb.symm, hs.symm⟩
  · rw [readFull_none (by omega)] at h
    cases h

theorem readFull_some_length {n : Nat} {s b s' : List Nat}
    (h : readFull n s = some (b, s')) : s'.length + n = s.length ∧ b.length = n := by
  obtain ⟨hn, hb, hs⟩ := readFull_some h
  subst hb; subst hs
  constructor
  · simp; omega
  · simp [hn]

namespace Oggloop

theorem readByte_cons (x : Nat) (xs : List Nat) :
    readByte (x :: xs) = some (x, xs) := by
  simp [readByte, readFull_of_le (by simp : 1 ≤ (x :: xs).length)]

theorem readByte_some {s : List Nat} {x : Nat} {s' : List Nat}
    (h : readByte s = some (x, s')) : s = x :: s' := by
  cases s with
  | nil => simp [readByte, readFull] at h
  | cons y ys => rw [readByte_cons] at h; cases h; rfl

theorem skip_nat_append {n : Nat} (hn : n ≠ 0) {l : List Nat} (r : List Nat)
    (hl : l.length = n) : skip (n : Int) (l ++ r) = .ok r := by
  have h0 : ¬ ((n : Int) = 0) := by exact_mod_cast hn
  have h1 : ¬ ((n : Int) < 0) := by omega
  subst hl
  simp only [skip, h0, if_false, h1, Int.toNat_natCast, readFull_append]

theorem skip_ok_shrink {n : Int} {s s' : List Nat} (h : skip n s = .ok s') :
    s'.length ≤ s.length := by
  unfold skip at h
  split at h
  · cases h; omega
  · split at h
    · cases h
    · rcases hr : readFull n.toNat s with _ | ⟨b, t⟩ <;> rw [hr] at h
      · cases h
      · cases h
        have := readFull_some_length hr
        omega

end Oggloop

/-! ### The packet-size accumulation -/

theorem accumSize_run (k t : Nat) (ht : t < 255) (rest : List Nat) :
    accumSize (List.replicate k 255 ++ t :: rest) = (255 * k + t, rest) := by
  induction k with
  | zero => simp [accumSize, ht]
  | succ k ih =>
    rw [List.replicate_succ, List.cons_append]
    unfold accumSize
    rw [if_neg (by omega), ih]
    ring_nf

theorem accumSize_all255 (k : Nat) :
    accumSize (List.replicate k 255) = (255 * k, []) := by
  induction k with
  | zero => simp [accumSize]
  | succ k ih =>
    rw [List.replicate_succ]
    unfold accumSize
    rw [if_neg (by omega), ih]
    ring_nf

theorem accumSize_snd_length (seg : Nat) (rest : List Nat) :
    (accumSize (seg :: rest)).2.length ≤ rest.length := by
  induction rest generalizing seg with
  | nil => unfold accumSize; split <;> simp [accumSize]
  | cons x xs ih =>
    unfold accumSize
    split
    · simp
    · have := ih x
      rcases h : accumSize (x :: xs) with ⟨sz, r⟩
      rw [h] at this
      simp at this ⊢
      omega

/-! ### The tag extractor -/

theorem findTag_ne_nil {key m ds : List Nat} (h : findTag key m = some ds) : ds ≠ [] := by
  induction m with
  | nil => simp [findTag] at h
  | cons b rest ih =>
    unfold findTag at h
    simp only at h
    split at h
    · split at h
      · exact ih h
      · rename_i hne
        cases h
        exact hne
    · exact ih h

theorem digitsVal_replicate48 (k : Nat) (ds : List Nat) :
    digitsVal (List.replicate k 48 ++ ds) = digitsVal ds := by
  induction k with
  | zero => simp
  | succ k ih =>
    rw [List.replicate_succ, List.cons_append]
    unfold digitsVal at ih ⊢
    simpa using ih

theorem atoiDigits_eq {ds : List Nat} (h : ds ≠ []) (hv : digitsVal ds ≤ maxGoInt) :
    atoiDigits ds = some (digitsVal ds) := by
  simp [atoiDigits, h, hv]

/-! ### Fuel adequacy, monotonicity and stream shrinking for the
early-return segment loop -/

namespace Oggloop

theorem segLoop_adequate (fuel : Nat) :
    ∀ (segs s : List Nat) (ls ll : Nat) (hf : Bool), segs.length ≤ fuel →
      segLoop fuel segs s ls ll hf ≠ SegOut.outOfFuel := by
  induction fuel with
  | zero =>
    intro segs s ls ll hf hlen
    have hnil : segs = [] := List.eq_nil_of_length_eq_zero (by omega)
    subst hnil
    simp [segLoop]
  | succ fuel ih =>
    intro segs s ls ll hf hlen
    cases segs with
    | nil => simp [segLoop]
    | cons seg rest =>
      simp only [segLoop]
      rcases h1 : readByte s with _ | ⟨ht, s1⟩
      · simp
      · simp only []
        rcases h2 : readFull 4 s1 with _ | ⟨b, s2⟩
        · simp
        · simp only []
          by_cases hb : b ≠ vorbSig
          · rw [if_pos hb]
            rcases h3 : skip ((seg : Int) - 5) s2 with e | s3
            · simp
            · simp only []
              exact ih rest s3 ls ll hf (by simp at hlen; omega)
          · rw [if_neg hb]
            by_cases hht : ht ≠ 3
            · rw [if_pos hht]
              rcases h3 : skip ((seg : Int) - 5) s2 with e | s3
              · simp
              · exact ih rest s3 ls ll true (by simp at hlen; omega)
            · rw [if_neg hht]
              rcases h4 : accumSize (seg :: rest) with ⟨size, rest'⟩
              simp only []
              by_cases hsz : ((size : Int) - 5) < 0
              · rw [if_pos hsz]; simp
              · rw [if_neg hsz]
                rcases h5 : readFull ((size : Int) - 5).toNat s2 with _ | ⟨meta, s3⟩
                · simp
                · simp only []
                  rcases h6 : applyTags meta ls ll with p | ⟨ls', ll'⟩
                  · simp
                  · have hr : rest'.length ≤ rest.length := by
                      have := accumSize_snd_length seg rest
                      rw [h4] at this
                      exact this
                    exact ih rest' s3 ls' ll' true (by simp at hlen; omega)

theorem segLoop_norm (f : Nat) :
    ∀ (segs s : List Nat) (ls ll : Nat) (hf : Bool), segs.length ≤ f →
      segLoop f segs s ls ll hf = segLoop segs.length segs s ls ll hf := by
  induction f using Nat.strong_induction_on with
  | _ f ihs =>
    intro segs s ls ll hf hlen
    cases f with
    | zero =>
      have hnil : segs = [] := List.eq_nil_of_length_eq_zero (by omega)
      subst hnil
      rfl
    | succ f =>
      cases segs with
      | nil => rfl
      | cons seg rest =>
        have hr : rest.length ≤ f := by simp at hlen; omega
        show segLoop (f + 1) (seg :: rest) s ls ll hf
          = segLoop (rest.length + 1) (seg :: rest) s ls ll hf
        rw [segLoop.eq_3, segLoop.eq_3]
        rcases h1 : readByte s with _ | ⟨ht, s1⟩
        · rfl
        · simp only []
          rcases h2 : readFull 4 s1 with _ | ⟨b, s2⟩
          · rfl
          · simp only []
            by_cases hb : b ≠ vorbSig
            · simp only [if_pos hb]
              rcases h3 : skip ((seg : Int) - 5) s2 with e | s3
              · rfl
              · simp only []
                exact ihs f (by omega) rest s3 ls ll hf hr
            · simp only [if_neg hb]
              by_cases hht : ht ≠ 3
              · simp only [if_pos hht]
                rcases h3 : skip ((seg : Int) - 5) s2 with e | s3
                · rfl
                · simp only []
                  exact ihs f (by omega) rest s3 ls ll true hr
              · simp only [if_neg hht]
                rcases h4 : accumSize (seg :: rest) with ⟨size, rest'⟩
                simp only []
                have hr' : rest'.length ≤ rest.length := by
                  have := accumSize_snd_length seg rest
                  rw [h4] at this
                  exact this
                by_cases hsz : ((size : Int) - 5) < 0
                · simp only [if_pos hsz]
                · simp only [if_neg hsz]
                  rcases h5 : readFull ((size : Int) - 5).toNat s2 with _ | ⟨meta, s3⟩
                  · rfl
                  · simp only []
                    rcases h6 : applyTags meta ls ll with pk | ⟨ls', ll'⟩
                    · rfl
                    · simp only []
                      rw [ihs f (by omega) rest' s3 ls' ll' true (by omega),
                        ihs rest.length (by omega) rest' s3 ls' ll' true (by omega)]

theorem segLoop_shrink (fuel : Nat) :
    ∀ {segs s : List Nat} {ls ll : Nat} {hf : Bool} {s' : List Nat} {a c : Nat} {h : Bool},
      segLoop fuel segs s ls ll hf = SegOut.done s' a c h → s'.length ≤ s.length := by
  induction fuel with
  | zero =>
    intro segs s ls ll hf s' a c h heq
    cases segs with
    | nil =>
      rw [segLoop.eq_1] at heq
      cases heq
      omega
    | cons seg rest => rw [segLoop.eq_2] at heq; cases heq
  | succ fuel ih =>
    intro segs s ls ll hf s' a c h heq
    cases segs with
    | nil =>
      rw [segLoop.eq_1] at heq
      cases heq
      omega
    | cons seg rest =>
      rw [segLoop.eq_3] at heq
      rcases h1 : readByte s with _ | ⟨ht, s1⟩ <;> rw [h1] at heq <;> simp only [] at heq
      · cases heq
      · have hs1 : s1.length + 1 = s.length := by
          have := readByte_some h1
          subst this
          simp
        rcases h2 : readFull 4 s1 with _ | ⟨b, s2⟩ <;> rw [h2] at heq <;> simp only [] at heq
        · cases heq
        · have hs2 : s2.length ≤ s1.length := by
            have := readFull_some_length h2
            omega
          by_cases hb : b ≠ vorbSig
          · rw [if_pos hb] at heq
            rcases h3 : skip ((seg : Int) - 5) s2 with e | s3 <;> rw [h3] at heq <;>
              simp only [] at heq
            · cases heq
            · have := skip_ok_shrink h3
              have := ih heq
              omega
          · rw [if_neg hb] at heq
            by_cases hht : ht ≠ 3
            · rw [if_pos hht] at heq
              rcases h3 : skip ((seg : Int) - 5) s2 with e | s3 <;> rw [h3] at heq <;>
                simp only [] at heq
              · cases heq
              · have := skip_ok_shrink h3
                have := ih heq
                omega
            · rw [if_neg hht] at heq
              rcases h4 : accumSize (seg :: rest) with ⟨size, rest'⟩
              rw [h4] at heq
              simp only [] at heq
              by_cases hsz : ((size : Int) - 5) < 0
              · rw [if_pos hsz] at heq; cases heq
              · rw [if_neg hsz] at heq
                rcases h5 : readFull ((size : Int) - 5).toNat s2 with _ | ⟨meta, s3⟩ <;>
                  rw [h5] at heq <;> simp only [] at heq
                · cases heq
                · have hs3 : s3.length ≤ s2.length := by
                    have := readFull_some_length h5
                    omega
                  rcases h6 : applyTags meta ls ll with pk | ⟨ls2, ll2⟩ <;> rw [h6] at heq <;>
                    simp only [] at heq
                  · cases heq
                  · have := ih heq
                    omega

end Oggloop

namespace Oggloop

theorem segLoop_comment_core (fuel seg : Nat) (tail body : List Nat) (ls ll : Nat)
    (hf : Bool) (size : Nat) (rest' : List Nat)
    (hacc : accumSize (seg :: tail) = (size, rest'))
    (h5 : 5 ≤ size) (hblen : size - 5 ≤ body.length) :
    segLoop (fuel + 1) (seg :: tail) (3 :: (vorbSig ++ body)) ls ll hf
      = match applyTags (body.take (size - 5)) ls ll with
        | .error p => SegOut.panic p
        | .ok (a, c) => segLoop fuel rest' (body.drop (size - 5)) a c true := by
  rw [segLoop.eq_3, readByte_cons]
  simp only []
  have h4 : readFull 4 (vorbSig ++ body) = some (vorbSig, body) := readFull_append vorbSig body
  rw [h4]
  simp only []
  rw [if_neg (by simp)]
  rw [if_neg (by simp)]
  rw [hacc]
  simp only []
  rw [if_neg (by omega)]
  have htn : ((size : Int) - 5).toNat = size - 5 := by omega
  rw [htn, readFull_of_le hblen]

theorem segLoop_comment (fuel k t : Nat) (ht : t < 255) (rest body : List Nat)
    (ls ll : Nat) (hf : Bool) (h5 : 5 ≤ 255 * k + t) (hblen : 255 * k + t - 5 ≤ body.length) :
    segLoop (fuel + 1) (List.replicate k 255 ++ t :: rest) (3 :: (vorbSig ++ body)) ls ll hf
      = match applyTags (body.take (255 * k + t - 5)) ls ll with
        | .error p => SegOut.panic p
        | .ok (a, c) => segLoop fuel rest (body.drop (255 * k + t - 5)) a c true := by
  cases k with
  | zero =>
    have hacc : accumSize (t :: rest) = (255 * 0 + t, rest) := by
      simpa using accumSize_run 0 t ht rest
    simpa using segLoop_comment_core fuel t rest body ls ll hf (255 * 0 + t) rest hacc
      (by omega) (by omega)
  | succ k =>
    have hlist : List.replicate (k + 1) 255 ++ t :: rest
        = 255 :: (List.replicate k 255 ++ t :: rest) := by
      rw [List.replicate_succ, List.cons_append]
    have hacc : accumSize (255 :: (List.replicate k 255 ++ t :: rest))
        = (255 * (k + 1) + t, rest) := by
      rw [← hlist, accumSize_run (k + 1) t ht rest]
    rw [hlist]
    exact segLoop_comment_core fuel 255 (List.replicate k 255 ++ t :: rest) body ls ll hf
      (255 * (k + 1) + t) rest hacc (by omega) hblen

theorem segLoop_comment_exhaust (fuel k : Nat) (body : List Nat) (ls ll : Nat) (hf : Bool)
    (hblen : 255 * (k + 1) - 5 ≤ body.length) :
    segLoop (fuel + 1) (List.replicate (k + 1) 255) (3 :: (vorbSig ++ body)) ls ll hf
      = match applyTags (body.take (255 * (k + 1) - 5)) ls ll with
        | .error p => SegOut.panic p
        | .ok (a, c) => segLoop fuel [] (body.drop (255 * (k + 1) - 5)) a c true := by
  have hlist : List.replicate (k + 1) 255 = 255 :: List.replicate k 255 := by
    rw [List.replicate_succ]
  have hacc : accumSize (255 :: List.replicate k 255) = (255 * (k + 1), []) := by
    rw [← hlist, accumSize_all255]
  rw [hlist]
  exact segLoop_comment_core fuel 255 (List.replicate k 255) body ls ll hf
    (255 * (k + 1)) [] hacc (by omega) hblen

end Oggloop

namespace Oggloop

theorem pageStep_shrink {s1 : List Nat} {ls ll : Nat} {s5 : List Nat} {a c : Nat} {h : Bool}
    (heq : pageStep s1 ls ll = SegOut.done s5 a c h) : s5.length ≤ s1.length := by
  unfold pageStep at heq
  rcases h1 : skip 22 s1 with e | s2 <;> rw [h1] at heq <;> simp only [] at heq
  · cases heq
  · have hs2 : s2.length ≤ s1.length := skip_ok_shrink h1
    rcases h2 : readByte s2 with _ | ⟨nseg, s3⟩ <;> rw [h2] at heq <;> simp only [] at heq
    · cases heq
    · have hs3 : s3.length + 1 = s2.length := by
        have := readByte_some h2
        subst this
        simp
      rcases h3 : readFull nseg s3 with _ | ⟨segs, s4⟩ <;> rw [h3] at heq <;>
        simp only [] at heq
      · cases heq
      · have hs4 : s4.length ≤ s3.length := by
          have := readFull_some_length h3
          omega
        have := segLoop_shrink segs.length heq
        omega

theorem readLoop_norm (f : Nat) :
    ∀ (s : List Nat) (ls ll : Nat), s.length + 1 ≤ f →
      readLoop f s ls ll = readLoop (s.length + 1) s ls ll := by
  induction f using Nat.strong_induction_on with
  | _ f ihs =>
    intro s ls ll hlen
    cases f with
    | zero => omega
    | succ f =>
      rw [readLoop.eq_2, readLoop.eq_2]
      rcases h4 : readFull 4 s with _ | ⟨b, s1⟩
      · rfl
      · simp only []
        by_cases hb : b = oggSMagic
        · simp only [if_pos hb]
          cases hps : pageStep s1 ls ll with
          | done s5 ls' ll' hfb =>
            simp only []
            cases hfb with
            | false => rfl
            | true =>
              show readLoop f s5 ls' ll' = readLoop s.length s5 ls' ll'
              have hs1 : s1.length + 4 = s.length := by
                have := readFull_some_length h4
                omega
              have hs5 : s5.length ≤ s1.length := pageStep_shrink hps
              rw [ihs f (by omega) s5 ls' ll' (by omega),
                ihs s.length (by omega) s5 ls' ll' (by omega)]
          | fail e => rfl
          | panic p => rfl
          | outOfFuel => rfl
        · simp only [if_neg hb]

theorem readLoop_err_zero (fuel : Nat) :
    ∀ {s : List Nat} {ls ll a b : Nat} {e : OggErr},
      readLoop fuel s ls ll = ReadResult.ret a b (some e) → a = 0 ∧ b = 0 := by
  induction fuel with
  | zero =>
    intro s ls ll a b e heq
    rw [readLoop.eq_1] at heq
    cases heq
  | succ fuel ih =>
    intro s ls ll a b e heq
    rw [readLoop.eq_2] at heq
    rcases h4 : readFull 4 s with _ | ⟨b', s1⟩ <;> rw [h4] at heq <;> simp only [] at heq
    · cases heq
      exact ⟨rfl, rfl⟩
    · by_cases hb : b' = oggSMagic
      · rw [if_pos hb] at heq
        cases hps : pageStep s1 ls ll with
        | done s5 ls' ll' hfb =>
          rw [hps] at heq
          simp only [] at heq
          cases hfb with
          | false => simp only [if_neg (by simp : ¬ (false = true))] at heq; cases heq
          | true =>
            simp only [if_pos rfl] at heq
            exact ih heq
        | fail e2 =>
          rw [hps] at heq
          simp only [] at heq
          cases heq
          exact ⟨rfl, rfl⟩
        | panic p =>
          rw [hps] at heq
          simp only [] at heq
          cases heq
        | outOfFuel =>
          rw [hps] at heq
          simp only [] at heq
          cases heq
      · rw [if_neg hb] at heq
        cases heq

end Oggloop

namespace Oggloop

theorem readLoop_ret_none_normal (fuel : Nat) :
    ∀ {s : List Nat} {ls ll a b : Nat},
      readLoop fuel s ls ll = ReadResult.ret a b none → NormalRet s ls ll a b := by
  induction fuel with
  | zero =>
    intro s ls ll a b heq
    rw [readLoop.eq_1] at heq
    cases heq
  | succ fuel ih =>
    intro s ls ll a b heq
    rw [readLoop.eq_2] at heq
    rcases h4 : readFull 4 s with _ | ⟨b', s1⟩ <;> rw [h4] at heq <;> simp only [] at heq
    · cases heq
    · by_cases hb : b' = oggSMagic
      · rw [if_pos hb] at heq
        subst hb
        cases hps : pageStep s1 ls ll with
        | done s5 ls' ll' hfb =>
          rw [hps] at heq
          simp only [] at heq
          cases hfb with
          | false =>
            simp only [if_neg (by simp : ¬ (false = true))] at heq
            cases heq
            exact NormalRet.noHeader h4 hps
          | true =>
            simp only [if_pos rfl] at heq
            exact NormalRet.nextPage h4 hps (ih heq)
        | fail e2 => rw [hps] at heq; simp only [] at heq; cases heq
        | panic p => rw [hps] at heq; simp only [] at heq; cases heq
        | outOfFuel => rw [hps] at heq; simp only [] at heq; cases heq
      · rw [if_neg hb] at heq
        cases heq
        exact NormalRet.mismatch h4 hb

theorem normal_readLoop {s : List Nat} {ls ll a b : Nat} (hn : NormalRet s ls ll a b) :
    readLoop (s.length + 1) s ls ll = ReadResult.ret a b none := by
  induction hn with
  | mismatch h4 hb =>
    rw [readLoop.eq_2, h4]
    simp only []
    rw [if_neg hb]
  | noHeader h4 hps =>
    rw [readLoop.eq_2, h4]
    simp [hps]
  | nextPage h4 hps hrec ih =>
    rw [readLoop.eq_2, h4]
    simp only []
    rw [if_true, hps]
    simp only [if_true]
    have hs1 := (readFull_some_length h4).1
    have hs5 := pageStep_shrink hps
    rw [readLoop_norm _ _ _ _ (by omega)]
    exact ih

end Oggloop

namespace Oggloop

theorem skip_pos_append {n : Int} (hn : 0 < n) {l : List Nat} (r : List Nat)
    (hl : (l.length : Int) = n) : skip n (l ++ r) = .ok r := by
  unfold skip
  rw [if_neg (by omega), if_neg (by omega)]
  have htn : n.toNat = l.length := by omega
  rw [htn, readFull_append]

theorem readLoop_plainPage (m a c : Nat) :
    readLoop (m + 1) plainPage a c = ReadResult.ret a c none := rfl

theorem pageStep_commentPage (p q : List Nat) (ls ll : Nat) :
    pageStep (List.replicate 22 0 ++ ((p.length + 5) / 255 + 1) ::
        ((List.replicate ((p.length + 5) / 255) 255 ++ [(p.length + 5) % 255]) ++
          (3 :: (vorbSig ++ (p ++ q))))) ls ll
      = match applyTags p ls ll with
        | .error pk => SegOut.panic pk
        | .ok (a, c) => SegOut.done q a c true := by
  unfold pageStep
  rw [skip_pos_append (by omega) _ (by simp)]
  simp only []
  rw [readByte_cons]
  simp only []
  have hlen : (List.replicate ((p.length + 5) / 255) 255 ++ [(p.length + 5) % 255]).length
      = (p.length + 5) / 255 + 1 := by simp
  have hrt : readFull ((p.length + 5) / 255 + 1)
      ((List.replicate ((p.length + 5) / 255) 255 ++ [(p.length + 5) % 255]) ++
        (3 :: (vorbSig ++ (p ++ q))))
      = some (List.replicate ((p.length + 5) / 255) 255 ++ [(p.length + 5) % 255],
          3 :: (vorbSig ++ (p ++ q))) := by
    have h := readFull_append
      (List.replicate ((p.length + 5) / 255) 255 ++ [(p.length + 5) % 255])
      (3 :: (vorbSig ++ (p ++ q)))
    rwa [hlen] at h
  rw [hrt]
  simp only []
  unfold runSegs
  rw [hlen]
  have hsum : 255 * ((p.length + 5) / 255) + (p.length + 5) % 255 = p.length + 5 :=
    Nat.div_add_mod (p.length + 5) 255
  have hl : (p ++ q).length = p.length + q.length := by simp
  rw [segLoop_comment ((p.length + 5) / 255) ((p.length + 5) / 255) ((p.length + 5) % 255)
    (Nat.mod_lt _ (by omega)) [] (p ++ q) ls ll false (by omega) (by omega)]
  have htake : 255 * ((p.length + 5) / 255) + (p.length + 5) % 255 - 5 = p.length := by omega
  rw [htake, List.take_left, List.drop_left]
  rcases happ : applyTags p ls ll with pk | ⟨a, c⟩
  · simp only []
  · simp only []
    rw [segLoop.eq_1]

theorem read_mkStream (p : List Nat) :
    Read (mkStream p) = match applyTags p 0 0 with
      | .error pk => ReadResult.panicked pk
      | .ok (a, c) => ReadResult.ret a c none := by
  have hstr : mkStream p = oggSMagic ++ (List.replicate 22 0 ++ ((p.length + 5) / 255 + 1) ::
      ((List.replicate ((p.length + 5) / 255) 255 ++ [(p.length + 5) % 255]) ++
        (3 :: (vorbSig ++ (p ++ plainPage))))) := by
    simp [mkStream, commentPage]
  generalize hT : (List.replicate 22 0 ++ ((p.length + 5) / 255 + 1) ::
      ((List.replicate ((p.length + 5) / 255) 255 ++ [(p.length + 5) % 255]) ++
        (3 :: (vorbSig ++ (p ++ plainPage))))) = T at hstr
  unfold Read
  rw [hstr, readLoop.eq_2]
  have h4 : readFull 4 (oggSMagic ++ T) = some (oggSMagic, T) := readFull_append oggSMagic T
  rw [h4]
  simp only []
  rw [if_true]
  rw [← hT, pageStep_commentPage p plainPage 0 0]
  rcases happ : applyTags p 0 0 with pk | ⟨a, c⟩
  · simp only []
  · simp only []
    rw [if_true]
    have hpos : 0 < (oggSMagic ++ (List.replicate 22 0 ++ ((p.length + 5) / 255 + 1) ::
        ((List.replicate ((p.length + 5) / 255) 255 ++ [(p.length + 5) % 255]) ++
          (3 :: (vorbSig ++ (p ++ plainPage)))))).length := by
      simp [oggSMagic]
    obtain ⟨m, hm⟩ : ∃ m, (oggSMagic ++ (List.replicate 22 0 ++ ((p.length + 5) / 255 + 1) ::
        ((List.replicate ((p.length + 5) / 255) 255 ++ [(p.length + 5) % 255]) ++
          (3 :: (vorbSig ++ (p ++ plainPage)))))).length = m + 1 :=
      ⟨(oggSMagic ++ (List.replicate 22 0 ++ ((p.length + 5) / 255 + 1) ::
        ((List.replicate ((p.length + 5) / 255) 255 ++ [(p.length + 5) % 255]) ++
          (3 :: (vorbSig ++ (p ++ plainPage)))))).length - 1, by omega⟩
    rw [hm, readLoop_plainPage m a c]

end Oggloop

/-! ### The latched-error reader: primitive correspondences with the
early-return reader on error-free states, plus latched-state behavior -/

namespace OggloopAlt

theorem ReadBytes_of_readFull {n : Int} (hn : 0 ≤ n) {s b s' : List Nat}
    (h : readFull n.toNat s = some (b, s')) :
    ReadBytes n ⟨s, none⟩ = .ok (b, ⟨s', none⟩) := by
  obtain ⟨hle, hb, hs⟩ := readFull_some h
  subst hb
  subst hs
  unfold ReadBytes
  rw [if_neg (by omega)]
  rw [if_neg (by simp)]
  by_cases h0 : n = 0
  · subst h0
    rw [if_pos rfl]
    simp
  · rw [if_neg h0, if_pos hle]

theorem ReadByte_of {s : List Nat} {x : Nat} {s' : List Nat}
    (h : Oggloop.readByte s = some (x, s')) :
    ReadByte ⟨s, none⟩ = .ok (x, ⟨s', none⟩) := by
  have hs := Oggloop.readByte_some h
  subst hs
  have h1 : readFull (1 : Int).toNat (x :: s') = some ([x], s') := by
    rw [show (1 : Int).toNat = 1 from rfl, readFull_of_le (by simp)]
    rfl
  unfold ReadByte
  rw [ReadBytes_of_readFull (by omega) h1]
  rfl

theorem Skip_of_skip {n : Int} {s s' : List Nat} (h : Oggloop.skip n s = .ok s') :
    Skip n ⟨s, none⟩ = ⟨s', none⟩ := by
  unfold Oggloop.skip at h
  unfold Skip
  rw [if_neg (by simp)]
  by_cases h0 : n = 0
  · rw [if_pos h0] at h ⊢
    cases h
    rfl
  · rw [if_neg h0] at h ⊢
    by_cases hneg : n < 0
    · rw [if_pos hneg] at h
      cases h
    · rw [if_neg hneg] at h ⊢
      rcases h5 : readFull n.toNat s with _ | ⟨buf, t⟩ <;> rw [h5] at h <;> simp only [] at h
      · cases h
      · cases h
        rw [ReadBytes_of_readFull (by omega) h5]

theorem ReadBytes_latched {n : Int} (hn : 0 ≤ n) {s : List Nat} {e : OggErr} :
    ReadBytes n ⟨s, some e⟩ = .ok (List.replicate n.toNat 0, ⟨s, some e⟩) := by
  unfold ReadBytes
  rw [if_neg (by omega), if_pos (by simp)]

theorem ReadByte_latched {s : List Nat} {e : OggErr} :
    ReadByte ⟨s, some e⟩ = .ok (0, ⟨s, some e⟩) := by
  unfold ReadByte
  rw [ReadBytes_latched (by omega)]
  rfl

theorem Skip_latched {n : Int} {s : List Nat} {e : OggErr} :
    Skip n ⟨s, some e⟩ = ⟨s, some e⟩ := by
  unfold Skip
  rw [if_pos (by simp)]

theorem ReadBytes_short {n : Nat} {s : List Nat} (h : s.length < n) :
    ReadBytes (n : Int) ⟨s, none⟩
      = .ok (s ++ List.replicate (n - s.length) 0, ⟨[], some .eof⟩) := by
  unfold ReadBytes
  rw [if_neg (by omega), if_neg (by simp), if_neg (by exact_mod_cast by omega : ¬ ((n : Int) = 0)),
    if_neg (by simp; omega)]
  simp

theorem segLoop_latched (fuel : Nat) :
    ∀ (segs s : List Nat) (e : OggErr) (ls ll : Nat) (hf : Bool), segs.length ≤ fuel →
      segLoop fuel segs ⟨s, some e⟩ ls ll hf = .done ⟨s, some e⟩ ls ll hf := by
  induction fuel with
  | zero =>
    intro segs s e ls ll hf hlen
    have hnil : segs = [] := List.eq_nil_of_length_eq_zero (by omega)
    subst hnil
    rfl
  | succ fuel ih =>
    intro segs s e ls ll hf hlen
    cases segs with
    | nil => rfl
    | cons seg rest =>
      rw [segLoop.eq_3, ReadByte_latched]
      simp only []
      rw [ReadBytes_latched (by omega)]
      simp only []
      rw [if_pos (by decide : (List.replicate (4 : Int).toNat 0) ≠ vorbSig)]
      rw [Skip_latched]
      exact ih rest s e ls ll hf (by simp at hlen; omega)

end OggloopAlt

namespace OggloopAlt

theorem segLoop_go_er (fuel : Nat) :
    ∀ {segs s : List Nat} {ls ll : Nat} {hf : Bool} {s' : List Nat} {a c : Nat} {h : Bool},
      Oggloop.segLoop fuel segs s ls ll hf = Oggloop.SegOut.done s' a c h →
      segLoop fuel segs ⟨s, none⟩ ls ll hf = SegOut.done ⟨s', none⟩ a c h := by
  induction fuel with
  | zero =>
    intro segs s ls ll hf s' a c h heq
    cases segs with
    | nil =>
      rw [Oggloop.segLoop.eq_1] at heq
      cases heq
      rfl
    | cons seg rest => rw [Oggloop.segLoop.eq_2] at heq; cases heq
  | succ fuel ih =>
    intro segs s ls ll hf s' a c h heq
    cases segs with
    | nil =>
      rw [Oggloop.segLoop.eq_1] at heq
      cases heq
      rfl
    | cons seg rest =>
      rw [Oggloop.segLoop.eq_3] at heq
      rw [segLoop.eq_3]
      rcases h1 : Oggloop.readByte s with _ | ⟨ht, s1⟩ <;> rw [h1] at heq <;>
        simp only [] at heq
      · cases heq
      · rw [ReadByte_of h1]
        simp only []
        rcases h2 : readFull 4 s1 with _ | ⟨b, s2⟩ <;> rw [h2] at heq <;> simp only [] at heq
        · cases heq
        · have hrb : ReadBytes 4 ⟨s1, none⟩ = .ok (b, ⟨s2, none⟩) :=
            ReadBytes_of_readFull (by omega) (by simpa using h2)
          rw [hrb]
          simp only []
          by_cases hb : b ≠ vorbSig
          · rw [if_pos hb] at heq ⊢
            rcases h3 : Oggloop.skip ((seg : Int) - 5) s2 with e | s3 <;> rw [h3] at heq <;>
              simp only [] at heq
            · cases heq
            · rw [Skip_of_skip h3]
              exact ih heq
          · rw [if_neg hb] at heq ⊢
            by_cases hht : ht ≠ 3
            · rw [if_pos hht] at heq ⊢
              rcases h3 : Oggloop.skip ((seg : Int) - 5) s2 with e | s3 <;> rw [h3] at heq <;>
                simp only [] at heq
              · cases heq
              · rw [Skip_of_skip h3]
                exact ih heq
            · rw [if_neg hht] at heq ⊢
              rcases h4 : accumSize (seg :: rest) with ⟨size, rest'⟩
              rw [h4] at heq
              simp only [] at heq ⊢
              by_cases hsz : ((size : Int) - 5) < 0
              · rw [if_pos hsz] at heq
                cases heq
              · rw [if_neg hsz] at heq
                rcases h5 : readFull ((size : Int) - 5).toNat s2 with _ | ⟨meta, s3⟩ <;>
                  rw [h5] at heq <;> simp only [] at heq
                · cases heq
                · have hrb2 : ReadBytes ((size : Int) - 5) ⟨s2, none⟩
                      = .ok (meta, ⟨s3, none⟩) :=
                    ReadBytes_of_readFull (by omega) h5
                  rw [hrb2]
                  simp only []
                  rcases h6 : applyTags meta ls ll with pk | ⟨ls2, ll2⟩ <;> rw [h6] at heq <;>
                    simp only [] at heq
                  · cases heq
                  · exact ih heq

theorem pageStep_go_er {s1 : List Nat} {ls ll : Nat} {s5 : List Nat} {a c : Nat} {h : Bool}
    (heq : Oggloop.pageStep s1 ls ll = Oggloop.SegOut.done s5 a c h) :
    pageStep ⟨s1, none⟩ ls ll = SegOut.done ⟨s5, none⟩ a c h := by
  unfold Oggloop.pageStep at heq
  unfold pageStep
  rcases h1 : Oggloop.skip 22 s1 with e | s2 <;> rw [h1] at heq <;> simp only [] at heq
  · cases heq
  · rw [Skip_of_skip h1]
    rcases h2 : Oggloop.readByte s2 with _ | ⟨nseg, s3⟩ <;> rw [h2] at heq <;>
      simp only [] at heq
    · cases heq
    · rw [ReadByte_of h2]
      simp only []
      rcases h3 : readFull nseg s3 with _ | ⟨segs, s4⟩ <;> rw [h3] at heq <;>
        simp only [] at heq
      · cases heq
      · have hrb : ReadBytes (nseg : Int) ⟨s3, none⟩ = .ok (segs, ⟨s4, none⟩) :=
          ReadBytes_of_readFull (by omega) (by simpa using h3)
        rw [hrb]
        simp only []
        unfold Oggloop.runSegs at heq
        unfold runSegs
        exact segLoop_go_er segs.length heq

theorem readLoop_go_er (fuel : Nat) :
    ∀ {s : List Nat} {ls ll a b : Nat},
      Oggloop.readLoop fuel s ls ll = ReadResult.ret a b none →
      readLoop fuel ⟨s, none⟩ ls ll = ReadResult.ret a b none := by
  induction fuel with
  | zero =>
    intro s ls ll a b heq
    rw [Oggloop.readLoop.eq_1] at heq
    cases heq
  | succ fuel ih =>
    intro s ls ll a b heq
    rw [Oggloop.readLoop.eq_2] at heq
    rw [readLoop.eq_2]
    rcases h4 : readFull 4 s with _ | ⟨b', s1⟩ <;> rw [h4] at heq <;> simp only [] at heq
    · cases heq
    · have hrb : ReadBytes 4 ⟨s, none⟩ = .ok (b', ⟨s1, none⟩) :=
        ReadBytes_of_readFull (by omega) (by simpa using h4)
      rw [hrb]
      simp only []
      by_cases hb : b' = oggSMagic
      · rw [if_pos hb] at heq ⊢
        cases hps : Oggloop.pageStep s1 ls ll with
        | done s5 ls' ll' hfb =>
          rw [hps] at heq
          simp only [] at heq
          rw [pageStep_go_er hps]
          simp only []
          cases hfb with
          | false =>
            simp only [if_neg (by simp : ¬ (false = true))] at heq ⊢
            cases heq
            rfl
          | true =>
            simp only [if_pos rfl] at heq ⊢
            exact ih heq
        | fail e2 => rw [hps] at heq; simp only [] at heq; cases heq
        | panic p => rw [hps] at heq; simp only [] at heq; cases heq
        | outOfFuel => rw [hps] at heq; simp only [] at heq; cases heq
      · rw [if_neg hb] at heq ⊢
        cases heq
        rfl

end OggloopAlt

/-! ### Evaluating the tag extractor -/

theorem applyTags_both {p ds ds2 : List Nat} {ls ll v w : Nat}
    (h1 : findTag loopStartKey p = some ds) (hv : atoiDigits ds = some v)
    (h2 : findTag loopLengthKey p = some ds2) (hw : atoiDigits ds2 = some w) :
    applyTags p ls ll = .ok (v, w) := by
  unfold applyTags
  rw [h1]
  simp only []
  rw [hv]
  simp only []
  rw [h2]
  simp only []
  rw [hw]

theorem applyTags_start_only {p ds : List Nat} {ls ll v : Nat}
    (h1 : findTag loopStartKey p = some ds) (hv : atoiDigits ds = some v)
    (h2 : findTag loopLengthKey p = none) :
    applyTags p ls ll = .ok (v, ll) := by
  unfold applyTags
  rw [h1]
  simp only []
  rw [hv]
  simp only []
  rw [h2]

namespace OggloopAlt

theorem readLoop_truncSegs {z22 : List Nat} (hz : z22.length = 22) {n : Nat}
    {tail : List Nat} (ht : tail.length < n) (m ls ll : Nat) :
    readLoop (m + 1) ⟨oggSMagic ++ (z22 ++ n :: tail), none⟩ ls ll
      = ReadResult.ret ls ll (some .eof) := by
  rw [readLoop.eq_2]
  have h4 : ReadBytes 4 ⟨oggSMagic ++ (z22 ++ n :: tail), none⟩
      = .ok (oggSMagic, ⟨z22 ++ n :: tail, none⟩) :=
    ReadBytes_of_readFull (by omega) (readFull_append oggSMagic (z22 ++ n :: tail))
  rw [h4]
  simp only []
  rw [if_true]
  have hsk : Skip 22 ⟨z22 ++ n :: tail, none⟩ = ⟨n :: tail, none⟩ :=
    Skip_of_skip (Oggloop.skip_pos_append (by omega) _ (by exact_mod_cast hz))
  have hrb : ReadByte ⟨n :: tail, none⟩ = .ok (n, ⟨tail, none⟩) :=
    ReadByte_of (Oggloop.readByte_cons n tail)
  have hsh : ReadBytes (n : Int) ⟨tail, none⟩
      = .ok (tail ++ List.replicate (n - tail.length) 0, ⟨[], some .eof⟩) :=
    ReadBytes_short ht
  unfold pageStep
  rw [hsk, hrb]
  simp only []
  rw [hsh]
  simp only []
  unfold runSegs
  rw [segLoop_latched _ _ _ _ _ _ _ (le_refl _)]
  rfl

end OggloopAlt

/-! ### The claims -/

/-- C1 counterexample: a comment payload can contain the text `LOOPSTART=100`
(as part of `LOOPSTART=1001`) together with `LOOPLENGTH=200`, yet `Read`
returns (1001, 200), not (100, 200): the claim fails for arbitrary
surrounding bytes because the extractor takes the first match and its
maximal digit run. -/
theorem C1_counterexample :
    List.IsInfix (bytes "LOOPSTART=100") (bytes "LOOPSTART=1001LOOPLENGTH=200") ∧
    List.IsInfix (bytes "LOOPLENGTH=200") (bytes "LOOPSTART=1001LOOPLENGTH=200") ∧
    Oggloop.Read (mkStream (bytes "LOOPSTART=1001LOOPLENGTH=200"))
      = .ret 1001 200 none ∧
    Oggloop.Read (mkStream (bytes "LOOPSTART=1001LOOPLENGTH=200"))
      ≠ .ret 100 200 none :=
  ⟨by decide, by decide, by decide, by decide⟩

/-- C1 (amended): for every comment payload whose first `LOOPSTART=` digit run
is exactly "100" and whose first `LOOPLENGTH=` digit run is exactly "200"
(so the tags are not shadowed by earlier matches or trailing digits), a
stream carrying that payload in its comment packet yields exactly
(100, 200) with a nil error. -/
theorem C1_amended (p : List Nat) (_hlen : p.length ≤ 65019)
    (hs : findTag loopStartKey p = some [49, 48, 48])
    (hl : findTag loopLengthKey p = some [50, 48, 48]) :
    Oggloop.Read (mkStream p) = .ret 100 200 none := by
  rw [Oggloop.read_mkStream,
    applyTags_both hs (by decide : atoiDigits [49, 48, 48] = some 100) hl
      (by decide : atoiDigits [50, 48, 48] = some 200)]

/-- C1 witness: the amended theorem applied to the payload
"LOOPSTART=100,LOOPLENGTH=200". -/
theorem C1_witness :
    (bytes "LOOPSTART=100,LOOPLENGTH=200").length ≤ 65019 ∧
    findTag loopStartKey (bytes "LOOPSTART=100,LOOPLENGTH=200") = some [49, 48, 48] ∧
    findTag loopLengthKey (bytes "LOOPSTART=100,LOOPLENGTH=200") = some [50, 48, 48] ∧
    Oggloop.Read (mkStream (bytes "LOOPSTART=100,LOOPLENGTH=200")) = .ret 100 200 none :=
  ⟨by decide, by decide, by decide,
    C1_amended (bytes "LOOPSTART=100,LOOPLENGTH=200") (by decide) (by decide) (by decide)⟩

/-- C2: with the segment loop entered at the comment-header segment, a run of
255-entries followed by one entry `t < 255` yields a packet of size
`255 * k + t` (the sum including the terminating entry), and exactly that
sum minus 5 payload bytes are taken from the stream and handed to the tag
extractor; when the table is exhausted while all remaining entries are 255,
the packet ends at table end with size the sum `255 * (k + 1)` of those
entries. -/
theorem C2_reassembly :
    (∀ (k t : Nat) (rest body : List Nat) (ls ll : Nat) (hf : Bool),
      t < 255 → 5 ≤ 255 * k + t → 255 * k + t - 5 ≤ body.length →
      Oggloop.segLoop (List.replicate k 255 ++ t :: rest).length
          (List.replicate k 255 ++ t :: rest) (3 :: (vorbSig ++ body)) ls ll hf
        = match applyTags (body.take (255 * k + t - 5)) ls ll with
          | .error pk => .panic pk
          | .ok (a, c) =>
            Oggloop.segLoop rest.length rest (body.drop (255 * k + t - 5)) a c true) ∧
    (∀ (k : Nat) (body : List Nat) (ls ll : Nat) (hf : Bool),
      255 * (k + 1) - 5 ≤ body.length →
      Oggloop.segLoop (List.replicate (k + 1) 255).length (List.replicate (k + 1) 255)
          (3 :: (vorbSig ++ body)) ls ll hf
        = match applyTags (body.take (255 * (k + 1) - 5)) ls ll with
          | .error pk => .panic pk
          | .ok (a, c) => .done (body.drop (255 * (k + 1) - 5)) a c true) := by
  constructor
  · intro k t rest body ls ll hf ht h5 hb
    have hL : (List.replicate k 255 ++ t :: rest).length = (k + rest.length) + 1 := by
      simp
      omega
    rw [hL, Oggloop.segLoop_comment (k + rest.length) k t ht rest body ls ll hf h5 hb]
    rcases happ : applyTags (body.take (255 * k + t - 5)) ls ll with pk | ⟨a, c⟩
    · simp only []
    · simp only []
      rw [Oggloop.segLoop_norm (k + rest.length) rest _ a c true (by omega)]
  · intro k body ls ll hf hb
    have hL : (List.replicate (k + 1) 255).length = k + 1 := by simp
    rw [hL, Oggloop.segLoop_comment_exhaust k k body ls ll hf hb]
    rcases happ : applyTags (body.take (255 * (k + 1) - 5)) ls ll with pk | ⟨a, c⟩
    · simp only []
    · simp only []
      rw [Oggloop.segLoop.eq_1]

set_option maxRecDepth 8000 in
/-- C2 witness: a 255-run of length one terminated by entry 10 (packet size
265, payload 260), and an exhausted all-255 table of one entry (packet
size 255, payload 250). -/
theorem C2_witness :
    ((10 : Nat) < 255 ∧ 5 ≤ 255 * 1 + 10 ∧
      255 * 1 + 10 - 5 ≤ (List.replicate 260 65).length ∧
      Oggloop.segLoop (List.replicate 1 255 ++ 10 :: ([] : List Nat)).length
          (List.replicate 1 255 ++ 10 :: []) (3 :: (vorbSig ++ List.replicate 260 65)) 0 0 false
        = match applyTags ((List.replicate 260 65).take (255 * 1 + 10 - 5)) 0 0 with
          | .error pk => .panic pk
          | .ok (a, c) =>
            Oggloop.segLoop ([] : List Nat).length []
              ((List.replicate 260 65).drop (255 * 1 + 10 - 5)) a c true) ∧
    (255 * (0 + 1) - 5 ≤ (List.replicate 250 66).length ∧
      Oggloop.segLoop (List.replicate (0 + 1) 255).length (List.replicate (0 + 1) 255)
          (3 :: (vorbSig ++ List.replicate 250 66)) 0 0 true
        = match applyTags ((List.replicate 250 66).take (255 * (0 + 1) - 5)) 0 0 with
          | .error pk => .panic pk
          | .ok (a, c) => .done ((List.replicate 250 66).drop (255 * (0 + 1) - 5)) a c true) :=
  ⟨⟨by decide, by decide, by decide,
      C2_reassembly.1 1 10 [] (List.replicate 260 65) 0 0 false (by decide) (by decide)
        (by decide)⟩,
    ⟨by decide, C2_reassembly.2 0 (List.replicate 250 66) 0 0 true (by decide)⟩⟩

/-- C3 counterexample: the latched-error implementation surfaces a partial
result together with a non-nil error: after extracting LOOPSTART=7 from a
first page, a truncated second page latches an EOF error, and `Read`
returns (7, 0) alongside that error — contradicting the claim that no
partial result is surfaced by either implementation. -/
theorem C3_counterexample :
    OggloopAlt.Read (oggSMagic ++ List.replicate 22 0 ++ [1] ++ [16] ++ [3] ++ vorbSig ++
        bytes "LOOPSTART=7" ++ oggSMagic) = .ret 7 0 (some .eof) ∧ (7 : Nat) ≠ 0 :=
  ⟨by decide, by decide⟩

/-- C3 (amended): the early-return implementation (src/oggloop.go) carries no
partial result: whenever it returns a non-nil error, both returned values
are 0.  (The latched implementation returns the accumulated values
alongside the error, as the counterexample shows.) -/
theorem C3_amended (s : List Nat) (a b : Nat) (e : OggErr)
    (h : Oggloop.Read s = .ret a b (some e)) : a = 0 ∧ b = 0 :=
  Oggloop.readLoop_err_zero (s.length + 1) h

/-- C3 witness: the amended theorem applied to the empty stream, whose scan
fails with EOF and returns (0, 0). -/
theorem C3_witness :
    Oggloop.Read [] = .ret 0 0 (some .eof) ∧ ((0 : Nat) = 0 ∧ (0 : Nat) = 0) :=
  ⟨by decide, C3_amended [] 0 0 .eof (by decide)⟩

/-- C4 counterexample: on the empty stream the 4-byte capture read fails and
both implementations return an EOF error, not the claimed nil error. -/
theorem C4_counterexample :
    Oggloop.Read [] = .ret 0 0 (some .eof) ∧
    OggloopAlt.Read [] = .ret 0 0 (some .eof) ∧
    (some OggErr.eof ≠ (none : Option OggErr)) :=
  ⟨by decide, by decide, by decide⟩

/-- C4 (amended): for every stream of at least 4 bytes whose first 4 bytes are
not "OggS", both implementations return (0, 0) with a nil error; streams
shorter than 4 bytes (including the empty stream) instead propagate the
short-read error. -/
theorem C4_amended (s : List Nat) (h4 : 4 ≤ s.length) (hm : s.take 4 ≠ oggSMagic) :
    Oggloop.Read s = .ret 0 0 none ∧ OggloopAlt.Read s = .ret 0 0 none := by
  constructor
  · unfold Oggloop.Read
    rw [Oggloop.readLoop.eq_2, readFull_of_le h4]
    simp only []
    rw [if_neg hm]
  · unfold OggloopAlt.Read
    rw [OggloopAlt.readLoop.eq_2]
    have hrb : OggloopAlt.ReadBytes 4 ⟨s, none⟩ = .ok (s.take 4, ⟨s.drop 4, none⟩) :=
      OggloopAlt.ReadBytes_of_readFull (by omega) (by simpa using readFull_of_le h4)
    rw [hrb]
    simp only []
    rw [if_neg hm]

/-- C4 witness: the amended theorem applied to the 4-byte non-Ogg stream
[1, 2, 3, 4]. -/
theorem C4_witness :
    4 ≤ ([1, 2, 3, 4] : List Nat).length ∧
    ([1, 2, 3, 4] : List Nat).take 4 ≠ oggSMagic ∧
    (Oggloop.Read [1, 2, 3, 4] = .ret 0 0 none ∧
      OggloopAlt.Read [1, 2, 3, 4] = .ret 0 0 none) :=
  ⟨by decide, by decide, C4_amended [1, 2, 3, 4] (by decide) (by decide)⟩

/-- C5: on a page whose comment packet declares only 4 bytes (fewer than the
5 classification bytes already consumed), both implementations panic in
`make([]byte, n)` with the negative length -1 — they do not return the
protocol error the claim (and the dead `n < 0` guard in
`errReader.ReadBytes`) promises. -/
theorem C5_negative_size_panics :
    Oggloop.Read (oggSMagic ++ List.replicate 22 0 ++ [1] ++ [4] ++ [3] ++ vorbSig)
      = .panicked .makesliceNeg ∧
    OggloopAlt.Read (oggSMagic ++ List.replicate 22 0 ++ [1] ++ [4] ++ [3] ++ vorbSig)
      = .panicked .makesliceNeg :=
  ⟨by decide, by decide⟩

/-- C6 counterexample: the pattern `LOOPSTART=([0-9]+)` matches the payload
"LOOPSTART=9999999999999999999" (19 nines), yet `strconv.Atoi` fails on the
captured run because 10^19 - 1 exceeds the 64-bit int range, and `Read`
panics — the parse-failure branch is reachable. -/
theorem C6_counterexample :
    findTag loopStartKey (bytes "LOOPSTART=9999999999999999999")
      = some (bytes "9999999999999999999") ∧
    atoiDigits (bytes "9999999999999999999") = none ∧
    Oggloop.Read (mkStream (bytes "LOOPSTART=9999999999999999999"))
      = .panicked .atoiFail :=
  ⟨by decide, by decide, by decide⟩

/-- C6 (amended): the parse of a matched digit run cannot fail — so the panic
branch is unreachable — provided every matched run's value fits in Go's
64-bit int range; a matched run is never empty, so only the range check
can fail. -/
theorem C6_amended (meta : List Nat) (ls ll : Nat)
    (hs : ∀ ds ∈ findTag loopStartKey meta, digitsVal ds ≤ maxGoInt)
    (hl : ∀ ds ∈ findTag loopLengthKey meta, digitsVal ds ≤ maxGoInt) :
    ∃ r, applyTags meta ls ll = .ok r := by
  unfold applyTags
  rcases h1 : findTag loopStartKey meta with _ | ds
  · simp only []
    rcases h2 : findTag loopLengthKey meta with _ | ds2
    · exact ⟨(ls, ll), rfl⟩
    · simp only []
      rw [h2] at hl
      rw [atoiDigits_eq (findTag_ne_nil h2) (hl ds2 rfl)]
      exact ⟨(ls, digitsVal ds2), rfl⟩
  · simp only []
    rw [h1] at hs
    rw [atoiDigits_eq (findTag_ne_nil h1) (hs ds rfl)]
    simp only []
    rcases h2 : findTag loopLengthKey meta with _ | ds2
    · exact ⟨(digitsVal ds, ll), rfl⟩
    · simp only []
      rw [h2] at hl
      rw [atoiDigits_eq (findTag_ne_nil h2) (hl ds2 rfl)]
      exact ⟨(digitsVal ds, digitsVal ds2), rfl⟩

/-- C6 witness: the amended theorem applied to the payload "LOOPSTART=100",
whose matched run 100 is within range. -/
theorem C6_witness :
    (∀ ds ∈ findTag loopStartKey (bytes "LOOPSTART=100"), digitsVal ds ≤ maxGoInt) ∧
    (∀ ds ∈ findTag loopLengthKey (bytes "LOOPSTART=100"), digitsVal ds ≤ maxGoInt) ∧
    ∃ r, applyTags (bytes "LOOPSTART=100") 5 6 = .ok r :=
  ⟨by decide, by decide, C6_amended (bytes "LOOPSTART=100") 5 6 (by decide) (by decide)⟩

/-- C7: the early-return `Read` terminates with a nil error exactly through
the two normal-termination situations of the `NormalRet` relation — a
4-byte capture read that is not "OggS" (returning the accumulators as they
stand), or a fully processed page with no Vorbis header (returning the
values accumulated through that page) — with fully processed header pages
in between. -/
theorem C7_normal_termination (s : List Nat) (a b : Nat) :
    Oggloop.Read s = .ret a b none ↔ Oggloop.NormalRet s 0 0 a b := by
  constructor
  · exact fun h => Oggloop.readLoop_ret_none_normal (s.length + 1) h
  · exact fun h => Oggloop.normal_readLoop h

/-- C8: a stream whose first page has a valid capture pattern, a full fixed
header and a declared segment count, but fewer segment-table bytes than
declared, makes both implementations fail with the propagated EOF read
error (with no tag values), not a (0, 0) success. -/
theorem C8_truncated_table (z22 : List Nat) (n : Nat) (tail : List Nat)
    (hz : z22.length = 22) (ht : tail.length < n) :
    Oggloop.Read (oggSMagic ++ (z22 ++ n :: tail)) = .ret 0 0 (some .eof) ∧
    OggloopAlt.Read (oggSMagic ++ (z22 ++ n :: tail)) = .ret 0 0 (some .eof) := by
  constructor
  · unfold Oggloop.Read
    have h4 : readFull 4 (oggSMagic ++ (z22 ++ n :: tail))
        = some (oggSMagic, z22 ++ n :: tail) := readFull_append oggSMagic (z22 ++ n :: tail)
    rw [Oggloop.readLoop.eq_2, h4]
    simp only []
    rw [if_true]
    unfold Oggloop.pageStep
    rw [Oggloop.skip_pos_append (by omega) _ (by exact_mod_cast hz)]
    simp only []
    rw [Oggloop.readByte_cons]
    simp only []
    rw [readFull_none ht]
  · unfold OggloopAlt.Read
    have hm : (oggSMagic ++ (z22 ++ n :: tail)).length
        = ((oggSMagic ++ (z22 ++ n :: tail)).length - 1) + 1 := by
      simp [oggSMagic]
    rw [hm, OggloopAlt.readLoop_truncSegs hz ht]

/-- C8 witness: the truncated-table theorem applied to a page declaring 5
segment-table bytes but providing only 2. -/
theorem C8_witness :
    (List.replicate 22 0).length = 22 ∧ ([1, 2] : List Nat).length < 5 ∧
    (Oggloop.Read (oggSMagic ++ (List.replicate 22 0 ++ 5 :: [1, 2]))
        = .ret 0 0 (some .eof) ∧
      OggloopAlt.Read (oggSMagic ++ (List.replicate 22 0 ++ 5 :: [1, 2]))
        = .ret 0 0 (some .eof)) :=
  ⟨by decide, by decide, C8_truncated_table (List.replicate 22 0) 5 [1, 2] (by decide) (by decide)⟩

/-- C9: whenever both implementations complete with a nil error on the same
input stream, they return the same (loopStart, loopLength) pair. -/
theorem C9_agree (s : List Nat) (a b a2 b2 : Nat)
    (hgo : Oggloop.Read s = .ret a b none)
    (her : OggloopAlt.Read s = .ret a2 b2 none) : a = a2 ∧ b = b2 := by
  have h := OggloopAlt.readLoop_go_er (s.length + 1) hgo
  unfold OggloopAlt.Read at her
  rw [h] at her
  injection her with h1 h2 h3
  exact ⟨h1, h2⟩

/-- C9 witness: both implementations stop normally with (0, 0) on the
non-Ogg stream [1, 2, 3, 4]. -/
theorem C9_witness :
    Oggloop.Read [1, 2, 3, 4] = .ret 0 0 none ∧
    OggloopAlt.Read [1, 2, 3, 4] = .ret 0 0 none ∧
    ((0 : Nat) = 0 ∧ (0 : Nat) = 0) :=
  ⟨by decide, by decide, C9_agree [1, 2, 3, 4] 0 0 0 0 (by decide) (by decide)⟩

/-- C10: a matched LOOPSTART digit run with leading zeros parses to its
base-10 value with the zeros ignored (no literal or octal reading): the
stored value equals the value of the run with the zeros stripped, and the
end-to-end scan stores that value. -/
theorem C10_leading_zeros (k : Nat) (ds p : List Nat) (hds : ds ≠ [])
    (hv : digitsVal ds ≤ maxGoInt)
    (hs : findTag loopStartKey p = some (List.replicate k 48 ++ ds))
    (hl : findTag loopLengthKey p = none) :
    Oggloop.Read (mkStream p) = .ret (digitsVal ds) 0 none ∧
    digitsVal (List.replicate k 48 ++ ds) = digitsVal ds := by
  have hzeros := digitsVal_replicate48 k ds
  have hne : List.replicate k 48 ++ ds ≠ [] := by
    simp [hds]
  have hat : atoiDigits (List.replicate k 48 ++ ds) = some (digitsVal ds) := by
    rw [atoiDigits_eq hne (by rw [hzeros]; exact hv), hzeros]
  refine ⟨?_, hzeros⟩
  rw [Oggloop.read_mkStream, applyTags_start_only hs hat hl]

set_option maxRecDepth 4000 in
/-- C10 witness: the payload "LOOPSTART=0042" parses to 42. -/
theorem C10_witness :
    ([52, 50] : List Nat) ≠ [] ∧
    digitsVal [52, 50] ≤ maxGoInt ∧
    findTag loopStartKey (bytes "LOOPSTART=0042") = some (List.replicate 2 48 ++ [52, 50]) ∧
    findTag loopLengthKey (bytes "LOOPSTART=0042") = none ∧
    (Oggloop.Read (mkStream (bytes "LOOPSTART=0042")) = .ret 42 0 none ∧
      digitsVal (List.replicate 2 48 ++ [52, 50]) = 42) :=
  ⟨by decide, by decide, by decide, by decide,
    C10_leading_zeros 2 [52, 50] (bytes "LOOPSTART=0042") (by decide) (by decide)
      (by decide) (by decide)⟩
